import Mathlib

/-!
Verification of the distributed-integral repository (coordinator and worker
for a distributed trapezoidal integration) against its design document.

The C sources are shallowly embedded over exact rational arithmetic:
doubles become rationals, the per-thread reduction loop of integral.c
becomes a step-indexed (fuel) function so that its termination behaviour
is itself a provable statement, and the fallible system calls
(malloc, pthread_create, pthread_join, accept, recv) become explicit
outcome oracles.
-/

namespace DistIntegral

/-- Error codes returned by integrate in integral.c: 1 = invalid
parallelism, 2 = allocation failure, 3 = spawn failure, 4 = join failure. -/
inductive IntegrateError where
  | invalidParallelism
  | resourceExhausted
  | spawnFailure
  | joinFailure
  deriving DecidableEq, Repr

/-- Outcome oracles for the fallible system calls made by integrate:
whether the malloc of the thread-handle array succeeds, whether
pthread_create succeeds for thread i, whether the malloc inside
thread_integrate succeeds for thread i, and whether pthread_join
succeeds for thread i. -/
structure SysEnv where
  allocOk : Bool
  spawnOk : Nat → Bool
  threadAllocOk : Nat → Bool
  joinOk : Nat → Bool

/-- The environment in which every system call succeeds. -/
def allOk : SysEnv :=
  { allocOk := true
    spawnOk := fun _ => true
    threadAllocOk := fun _ => true
    joinOk := fun _ => true }

/-- Step-indexed semantics of the reduction loop of thread_integrate
(integral.c): for (x = a; x + delta <= b; x += delta) res += delta * (f(x+delta) + f(x)).
The fuel bounds the number of iterations; none means the loop did not
finish within the given fuel. -/
def loopFuel (f : ℚ → ℚ) (b delta : ℚ) : ℕ → ℚ → ℚ → Option ℚ
  | 0, x, res => if x + delta ≤ b then none else some res
  | fuel + 1, x, res =>
      if x + delta ≤ b then
        loopFuel f b delta fuel (x + delta) (res + delta * (f (x + delta) + f x))
      else some res

/-- The number of iterations the loop performs from position x
(for a positive step delta). -/
def loopSteps (b delta x : ℚ) : ℕ := (⌊(b - x) / delta⌋).toNat

/-- thread_integrate of integral.c: run the reduction loop over the
sub-interval, then divide the accumulated sum by two. -/
def thread_integrate (f : ℚ → ℚ) (a b delta : ℚ) : ℚ :=
  ((loopFuel f b delta (loopSteps b delta a) a 0).getD 0) / 2

/-- integrate of integral.c: reject n_threads < 1 with error 1, fail the
thread-handle allocation with error 2, split the interval into n_threads
equal sub-intervals of width d = (b - a) / n_threads, fail with error 3
when a pthread_create fails, fail with error 4 when a pthread_join fails
or a thread returned NULL (its own malloc failed), and otherwise sum the
partial results in thread order. -/
def integrate (env : SysEnv) (f : ℚ → ℚ) (a b : ℚ) (nThreads : ℤ)
    (delta : ℚ) : Except IntegrateError ℚ :=
  if nThreads < 1 then Except.error IntegrateError.invalidParallelism
  else if env.allocOk = false then Except.error IntegrateError.resourceExhausted
  else if ((List.range nThreads.toNat).all env.spawnOk) = false then
    Except.error IntegrateError.spawnFailure
  else if ((List.range nThreads.toNat).all
      (fun i => env.joinOk i && env.threadAllocOk i)) = false then
    Except.error IntegrateError.joinFailure
  else
    Except.ok ((List.range nThreads.toNat).foldl
      (fun acc (i : ℕ) =>
        acc + thread_integrate f (a + (b - a) / (nThreads : ℚ) * (i : ℚ))
          (a + (b - a) / (nThreads : ℚ) * ((i : ℚ) + 1)) delta) 0)

/-- Modelled from the spec (section 4.1, for the refinement claim): each
sub-interval is reduced by the trapezoidal rule with fixed step delta,
accumulating delta * (f x + f (x + delta)) for x stepping from the
sub-interval start while x + delta is at most the sub-interval end, then
dividing by 2; the final partial step short of delta is silently
dropped, so exactly the floor of (e - s) / delta full steps contribute. -/
def specTrapezoid (f : ℚ → ℚ) (s e delta : ℚ) : ℚ :=
  (∑ k in Finset.range ((⌊(e - s) / delta⌋).toNat),
    delta * (f (s + k * delta) + f (s + k * delta + delta))) / 2

/-- Modelled from the spec (section 4.1, for the refinement claim): split
the interval into parallelism equal-width sub-intervals and sum their
trapezoidal reductions. -/
def specIntegrate (f : ℚ → ℚ) (a b : ℚ) (parallelism : ℕ) (delta : ℚ) : ℚ :=
  ∑ i in Finset.range parallelism,
    specTrapezoid f (a + (b - a) / (parallelism : ℚ) * i)
      (a + (b - a) / (parallelism : ℚ) * (i + 1)) delta

/-! Basic lemmas about the loop. -/

/-- With exactly loopSteps fuel the loop finishes and computes the
closed-form trapezoidal sum over the full steps that fit. -/
theorem loopFuel_closed (f : ℚ → ℚ) (b delta : ℚ) (hd : 0 < delta) :
    ∀ (n : ℕ) (x res : ℚ), loopSteps b delta x = n →
      loopFuel f b delta n x res =
        some (res + ∑ k in Finset.range n,
          delta * (f (x + k * delta + delta) + f (x + k * delta))) := by
  intro n
  induction n with
  | zero =>
      intro x res hn
      unfold loopSteps at hn
      have hfl : (⌊(b - x) / delta⌋ : ℤ) ≤ 0 := by omega
      have hlt : (b - x) / delta < 1 := by
        have := Int.lt_floor_add_one ((b - x) / delta)
        have hle : (⌊(b - x) / delta⌋ : ℚ) ≤ 0 := by exact_mod_cast hfl
        linarith
      have hnb : ¬ (x + delta ≤ b) := by
        intro hle
        have h1 : (1 : ℚ) ≤ (b - x) / delta := by
          rw [le_div_iff₀ hd]
          linarith
        linarith
      simp [loopFuel, hnb]
  | succ n ih =>
      intro x res hn
      have hfl : (1 : ℤ) ≤ ⌊(b - x) / delta⌋ := by
        unfold loopSteps at hn
        omega
      have hge : (1 : ℚ) ≤ (b - x) / delta := by
        have := Int.floor_le ((b - x) / delta)
        have h1 : ((1 : ℤ) : ℚ) ≤ (⌊(b - x) / delta⌋ : ℚ) := by exact_mod_cast hfl
        push_cast at h1
        linarith
      have hstep : x + delta ≤ b := by
        rw [le_div_iff₀ hd] at hge
        linarith
      have hnext : loopSteps b delta (x + delta) = n := by
        unfold loopSteps at hn ⊢
        have hδ : delta ≠ 0 := ne_of_gt hd
        have hdiv : (b - (x + delta)) / delta = (b - x) / delta - 1 := by
          field_simp
          ring
        rw [hdiv, Int.floor_sub_one]
        omega
      rw [loopFuel, if_pos hstep, ih (x + delta) _ hnext]
      congr 1
      rw [Finset.sum_range_succ']
      push_cast
      have hs : ∀ k ∈ Finset.range n,
          delta * (f (x + delta + (k : ℚ) * delta + delta) + f (x + delta + (k : ℚ) * delta))
            = delta * (f (x + ((k : ℚ) + 1) * delta + delta) + f (x + ((k : ℚ) + 1) * delta)) := by
        intro k _
        have a1 : x + delta + (k : ℚ) * delta + delta = x + ((k : ℚ) + 1) * delta + delta := by
          ring
        have a2 : x + delta + (k : ℚ) * delta = x + ((k : ℚ) + 1) * delta := by ring
        rw [a1, a2]
      rw [Finset.sum_congr rfl hs]
      have a3 : x + (0 : ℚ) * delta + delta = x + delta := by ring
      have a4 : x + (0 : ℚ) * delta = x := by ring
      rw [a3, a4]
      ring

/-- thread_integrate equals the trapezoidal closed form of the spec on
every sub-interval, for a positive step. -/
theorem thread_integrate_eq_spec (f : ℚ → ℚ) (a b delta : ℚ) (hd : 0 < delta) :
    thread_integrate f a b delta = specTrapezoid f a b delta := by
  unfold thread_integrate specTrapezoid
  rw [loopFuel_closed f b delta hd (loopSteps b delta a) a 0 rfl]
  unfold loopSteps
  simp only [Option.getD_some, zero_add]
  congr 1
  apply Finset.sum_congr rfl
  intro k _
  ring

/-- Folding additions over List.range agrees with the Finset.range sum. -/
theorem foldl_range_add (g : ℕ → ℚ) (n : ℕ) :
    (List.range n).foldl (fun acc i => acc + g i) 0 = ∑ i in Finset.range n, g i := by
  induction n with
  | zero => simp
  | succ n ih => rw [List.range_succ, List.foldl_append, ih, Finset.sum_range_succ]; rfl

/-- With a zero step and a position still inside the interval, the loop
never finishes, whatever fuel it is given. -/
theorem loopFuel_zero_delta (f : ℚ → ℚ) (b x : ℚ) (hx : x ≤ b) :
    ∀ (n : ℕ) (res : ℚ), loopFuel f b 0 n x res = none := by
  intro n
  induction n with
  | zero => intro res; simp [loopFuel, hx]
  | succ n ih => intro res; simpa [loopFuel, hx] using ih _

/-- C1: for every workload function f, bounds a ≤ b, parallelism ≥ 1 and
delta > 0, integrate splits the interval into parallelism equal-width
sub-intervals of width (b - a) / parallelism, reduces each one by the
trapezoidal loop that accumulates delta * (f x + f (x + delta)) while
x + delta stays at most the sub-interval end and halves the accumulated
sum, and returns the sum of the partial results; the loop performs
exactly the floor of (width / delta) full steps, so the final partial
step short of delta is silently dropped. -/
theorem integrate_matches_spec (f : ℚ → ℚ) (a b : ℚ) (p : ℤ) (delta : ℚ)
    (_hab : a ≤ b) (hp : 1 ≤ p) (hd : 0 < delta) :
    integrate allOk f a b p delta = Except.ok (specIntegrate f a b p.toNat delta) := by
  have h1 : ¬ (p < 1) := by omega
  have hcast : ((p.toNat : ℕ) : ℚ) = (p : ℚ) := by
    exact_mod_cast Int.toNat_of_nonneg (by omega : (0:ℤ) ≤ p)
  have hA : ¬ (allOk.allocOk = false) := by simp [allOk]
  have hS : ¬ ((List.range p.toNat).all allOk.spawnOk = false) := by simp [allOk]
  have hJ : ¬ ((List.range p.toNat).all
      (fun i => allOk.joinOk i && allOk.threadAllocOk i) = false) := by simp [allOk]
  unfold integrate
  rw [if_neg h1, if_neg hA, if_neg hS, if_neg hJ]
  rw [foldl_range_add]
  unfold specIntegrate
  rw [hcast]
  congr 1
  apply Finset.sum_congr rfl
  intro i _
  exact thread_integrate_eq_spec f _ _ delta hd

/-- Witness for C1 at f the identity, interval zero to one, parallelism
two and delta one half. -/
theorem integrate_matches_spec_witness :
    integrate allOk (fun x => x) 0 1 2 (1/2) =
      Except.ok (specIntegrate (fun x => x) 0 1 (2:ℤ).toNat (1/2)) :=
  integrate_matches_spec (fun x => x) 0 1 2 (1/2) (by norm_num) (by norm_num) (by norm_num)

/-- C10: the reduction loop of thread_integrate terminates after finitely
many steps whenever delta > 0 (some finite fuel suffices), and delta > 0
is necessary: with delta = 0 and a ≤ b the loop condition never becomes
false and no amount of fuel finishes the loop. -/
theorem loop_termination (f : ℚ → ℚ) (a b delta : ℚ) (hd : 0 < delta) (hab : a ≤ b) :
    (∃ n, (loopFuel f b delta n a 0).isSome = true) ∧
      (∀ n res, loopFuel f b 0 n a res = none) := by
  constructor
  · refine ⟨loopSteps b delta a, ?_⟩
    rw [loopFuel_closed f b delta hd _ a 0 rfl]
    rfl
  · exact loopFuel_zero_delta f b a hab

/-- Witness for C10 at f the identity, the unit interval and delta one. -/
theorem loop_termination_witness :
    (∃ n, (loopFuel (fun x => x) 1 1 n 0 0).isSome = true) ∧
      (∀ n res, loopFuel (fun x => x) 1 0 n 0 res = none) :=
  loop_termination (fun x => x) 0 1 1 (by norm_num) (by norm_num)

/-- C5: integrate returns invalidParallelism exactly when the requested
parallelism is below one (whatever the system oracles say, so before any
work is attempted), resourceExhausted exactly when the thread-handle
allocation fails, spawnFailure exactly when some pthread_create among the
parallelism threads fails, joinFailure exactly when every spawn succeeded
but some join (or the joined thread's own allocation) failed, and
otherwise succeeds with the sum of the per-thread partial results. -/
theorem integrate_error_cases (env : SysEnv) (f : ℚ → ℚ) (a b delta : ℚ) (p : ℤ) :
    (integrate env f a b p delta = Except.error IntegrateError.invalidParallelism ↔ p < 1) ∧
    (integrate env f a b p delta = Except.error IntegrateError.resourceExhausted ↔
      1 ≤ p ∧ env.allocOk = false) ∧
    (integrate env f a b p delta = Except.error IntegrateError.spawnFailure ↔
      1 ≤ p ∧ env.allocOk = true ∧ ∃ i < p.toNat, env.spawnOk i = false) ∧
    (integrate env f a b p delta = Except.error IntegrateError.joinFailure ↔
      1 ≤ p ∧ env.allocOk = true ∧ (∀ i < p.toNat, env.spawnOk i = true) ∧
        ∃ i < p.toNat, (env.joinOk i && env.threadAllocOk i) = false) ∧
    (1 ≤ p → env.allocOk = true → (∀ i < p.toNat, env.spawnOk i = true) →
      (∀ i < p.toNat, (env.joinOk i && env.threadAllocOk i) = true) →
      integrate env f a b p delta =
        Except.ok (∑ i in Finset.range p.toNat,
          thread_integrate f (a + (b - a) / (p : ℚ) * (i : ℚ))
            (a + (b - a) / (p : ℚ) * ((i : ℚ) + 1)) delta)) := by
  have hSp : ((List.range p.toNat).all env.spawnOk = false) ↔
      ∃ i < p.toNat, env.spawnOk i = false := by
    simp [List.all_eq_false]
  have hJn : ((List.range p.toNat).all
        (fun i => env.joinOk i && env.threadAllocOk i) = false) ↔
      ∃ i < p.toNat, (env.joinOk i && env.threadAllocOk i) = false := by
    simp [List.all_eq_false]
  unfold integrate
  by_cases h1 : p < 1
  · rw [if_pos h1]
    have hp : ¬ (1 ≤ p) := by omega
    exact ⟨by simp [h1], by simp [hp], by simp [hp], by simp [hp],
      fun h => absurd h hp⟩
  · rw [if_neg h1]
    have hp : 1 ≤ p := by omega
    by_cases h2 : env.allocOk = false
    · rw [if_pos h2]
      refine ⟨by simp [h1], by simp [hp, h2], by simp [h2], by simp [h2], ?_⟩
      intro _ hOk _ _
      exact absurd hOk (by simp [h2])
    · rw [if_neg h2]
      have h2T : env.allocOk = true := by
        revert h2
        cases env.allocOk <;> simp
      by_cases h3 : (List.range p.toNat).all env.spawnOk = false
      · rw [if_pos h3]
        obtain ⟨i, hi, hf⟩ := hSp.mp h3
        refine ⟨by simp [h1], by simp [h2], iff_of_true rfl ⟨hp, h2T, hSp.mp h3⟩, ?_, ?_⟩
        · constructor
          · intro h
            exact absurd h (by simp)
          · rintro ⟨-, -, hall, -⟩
            exact absurd (hall i hi) (by simp [hf])
        · intro _ _ hall _
          exact absurd (hall i hi) (by simp [hf])
      · rw [if_neg h3]
        have h3T : (List.range p.toNat).all env.spawnOk = true := by
          revert h3
          cases ((List.range p.toNat).all env.spawnOk) <;> simp
        have hallS : ∀ i < p.toNat, env.spawnOk i = true := by
          intro i hi
          exact List.all_eq_true.mp h3T i (List.mem_range.mpr hi)
        by_cases h4 : (List.range p.toNat).all
            (fun i => env.joinOk i && env.threadAllocOk i) = false
        · rw [if_pos h4]
          obtain ⟨i, hi, hf⟩ := hJn.mp h4
          refine ⟨by simp [h1], by simp [h2], ?_,
            iff_of_true rfl ⟨hp, h2T, hallS, hJn.mp h4⟩, ?_⟩
          · constructor
            · intro h
              exact absurd h (by simp)
            · rintro ⟨-, -, ⟨j, hj, hjf⟩⟩
              exact absurd (hallS j hj) (by simp [hjf])
          · intro _ _ _ hallJ
            exact absurd (hallJ i hi) (by simp [hf])
        · rw [if_neg h4, foldl_range_add]
          have h4T : (List.range p.toNat).all
              (fun i => env.joinOk i && env.threadAllocOk i) = true := by
            revert h4
            cases ((List.range p.toNat).all
              (fun i => env.joinOk i && env.threadAllocOk i)) <;> simp
          have hallJ : ∀ i < p.toNat, (env.joinOk i && env.threadAllocOk i) = true := by
            intro i hi
            exact List.all_eq_true.mp h4T i (List.mem_range.mpr hi)
          refine ⟨by simp [h1], by simp [h2], ?_, ?_, fun _ _ _ _ => rfl⟩
          · constructor
            · intro h
              exact absurd h (by simp)
            · rintro ⟨-, -, ⟨j, hj, hjf⟩⟩
              exact absurd (hallS j hj) (by simp [hjf])
          · constructor
            · intro h
              exact absurd h (by simp)
            · rintro ⟨-, -, -, ⟨j, hj, hjf⟩⟩
              exact absurd (hallJ j hj) (by simp [hjf])

/-- Witness for C5: with every oracle succeeding, parallelism one over
the unit interval succeeds with the single partial result. -/
theorem integrate_error_cases_witness :
    integrate allOk (fun x => x) 0 1 1 1 =
      Except.ok (∑ i in Finset.range (1:ℤ).toNat,
        thread_integrate (fun x => x) (0 + (1 - 0) / ((1:ℤ) : ℚ) * (i : ℚ))
          (0 + (1 - 0) / ((1:ℤ) : ℚ) * ((i : ℚ) + 1)) 1) :=
  (integrate_error_cases allOk (fun x => x) 0 1 1 1).2.2.2.2
    (by norm_num) rfl (fun i _ => rfl) (fun i _ => rfl)

/-- The sum of the first m odd rationals is m squared. -/
theorem sum_odd_eq_sq (m : ℕ) :
    ∑ k in Finset.range m, (2 * (k : ℚ) + 1) = (m : ℚ)^2 := by
  induction m with
  | zero => simp
  | succ m ih =>
      rw [Finset.sum_range_succ, ih]
      push_cast
      ring

/-- C7: for the identity workload over the unit interval with
parallelism one and delta = 1/n for a positive integer n, integrate
succeeds and its result is within delta of one half (it is in fact
exactly one half, since delta divides the interval width). -/
theorem engine_linear_correct (n : ℕ) (hn : 0 < n) :
    ∃ r, integrate allOk (fun x => x) 0 1 1 ((1 : ℚ) / n) = Except.ok r ∧
      |r - 1/2| ≤ (1 : ℚ) / n := by
  have hnQ : (0:ℚ) < (n:ℚ) := by exact_mod_cast hn
  have hn0 : (n:ℚ) ≠ 0 := ne_of_gt hnQ
  have hd : (0:ℚ) < 1/n := by positivity
  refine ⟨1/2, ?_, by simp⟩
  rw [integrate_matches_spec (fun x => x) 0 1 1 ((1:ℚ)/n) (by norm_num) (by norm_num) hd]
  congr 1
  have hto : (1:ℤ).toNat = 1 := rfl
  rw [hto]
  unfold specIntegrate
  rw [Finset.sum_range_one]
  have hs : (0:ℚ) + (1 - 0) / ((1:ℕ):ℚ) * ((0:ℕ):ℚ) = 0 := by norm_num
  have he : (0:ℚ) + (1 - 0) / ((1:ℕ):ℚ) * (((0:ℕ):ℚ) + 1) = 1 := by norm_num
  rw [hs, he]
  unfold specTrapezoid
  have hN : ((⌊((1:ℚ) - 0) / (1/n)⌋).toNat) = n := by
    rw [show ((1:ℚ) - 0) / (1/n) = (n:ℚ) by field_simp]
    rw [Int.floor_natCast]
    exact Int.toNat_natCast n
  rw [hN]
  have hterm : ∀ k ∈ Finset.range n,
      (1:ℚ)/n * ((fun x => x) (0 + (k:ℚ) * (1/n)) + (fun x => x) (0 + (k:ℚ) * (1/n) + 1/n))
        = (2 * (k:ℚ) + 1) / (n:ℚ)^2 := by
    intro k _
    show (1:ℚ)/n * ((0 + (k:ℚ) * (1/n)) + (0 + (k:ℚ) * (1/n) + 1/n)) = (2 * (k:ℚ) + 1) / (n:ℚ)^2
    field_simp
    ring
  rw [Finset.sum_congr rfl hterm, ← Finset.sum_div, sum_odd_eq_sq]
  rw [div_self (by positivity : ((n:ℚ)^2) ≠ 0)]

/-- Witness for C7 at n = 4. -/
theorem engine_linear_correct_witness :
    ∃ r, integrate allOk (fun x => x) 0 1 1 ((1 : ℚ) / (4:ℕ)) = Except.ok r ∧
      |r - 1/2| ≤ (1 : ℚ) / (4:ℕ) :=
  engine_linear_correct 4 (by norm_num)

/-! Server side: data model of common.h and the partitioning code of
server.c. -/

/-- Interval of common.h: start and end points. -/
structure Interval where
  start : ℚ
  «end» : ℚ
  deriving DecidableEq, Repr

/-- Benchmark message of common.h: measured time in milliseconds and the
benchmark delta. -/
structure Benchmark where
  timeMs : ℚ
  delta : ℚ
  deriving DecidableEq, Repr

/-- The per-worker performance index computed inside
computeIntervalsForWorkersWithLoadBalancing: 1e-6 / (timeMs * delta). -/
def performanceIndex (bm : Benchmark) : ℚ :=
  (1 / 1000000) / (bm.timeMs * bm.delta)

/-- The assignment loop of computeIntervalsForWorkersWithLoadBalancing
(server.c): walk the benchmarks in pool order; each worker receives the
sub-interval from the running cursor lastEnd to lastEnd plus its share
intervalLength * (performanceIndex / sumIdx), and the cursor advances by
that share. -/
def lbAssign (sumIdx intervalLength : ℚ) : List Benchmark → ℚ → List Interval
  | [], _ => []
  | bm :: rest, lastEnd =>
      ⟨lastEnd, lastEnd + intervalLength * (performanceIndex bm / sumIdx)⟩ ::
        lbAssign sumIdx intervalLength rest
          (lastEnd + intervalLength * (performanceIndex bm / sumIdx))

/-- computeIntervalsForWorkersWithLoadBalancing of server.c: sum the
performance indices, then assign shares left to right starting from the
interval's start point. -/
def computeIntervalsForWorkersWithLoadBalancing (benchmarks : List Benchmark)
    (interval : Interval) : List Interval :=
  lbAssign ((benchmarks.map performanceIndex).sum)
    (interval.«end» - interval.start) benchmarks interval.start

/-- computeIntervalsForWorkers of server.c: load-balanced split when the
flag is set, otherwise numberOfWorkers equal-width sub-intervals. -/
def computeIntervalsForWorkers (useLoadBalancing : Bool)
    (benchmarks : List Benchmark) (numberOfWorkers : ℕ)
    (interval : Interval) : List Interval :=
  if useLoadBalancing then
    computeIntervalsForWorkersWithLoadBalancing benchmarks interval
  else
    (List.range numberOfWorkers).map (fun (i : ℕ) =>
      ⟨interval.start +
        (interval.«end» - interval.start) / (numberOfWorkers : ℚ) * (i : ℚ),
       interval.start +
        (interval.«end» - interval.start) / (numberOfWorkers : ℚ) * ((i : ℚ) + 1)⟩)

/-- lbAssign produces one interval per benchmark. -/
theorem lbAssign_length (s len : ℚ) :
    ∀ (l : List Benchmark) (c : ℚ), (lbAssign s len l c).length = l.length := by
  intro l
  induction l with
  | nil => intro c; rfl
  | cons bm rest ih => intro c; simp [lbAssign, ih]

/-- Each interval produced by lbAssign has width equal to the interval
length times the normalized share of the benchmark at the same index. -/
theorem lbAssign_width (s len : ℚ) :
    ∀ (l : List Benchmark) (c : ℚ) (i : ℕ) (bm : Benchmark) (p : Interval),
      l[i]? = some bm → (lbAssign s len l c)[i]? = some p →
        p.«end» - p.start = len * (performanceIndex bm / s) := by
  intro l
  induction l with
  | nil => intro c i bm p h _; simp at h
  | cons bm0 rest ih =>
      intro c i bm p hbm hp
      cases i with
      | zero =>
          rw [List.getElem?_cons_zero] at hbm
          rw [show lbAssign s len (bm0 :: rest) c =
            ⟨c, c + len * (performanceIndex bm0 / s)⟩ ::
              lbAssign s len rest (c + len * (performanceIndex bm0 / s)) from rfl,
            List.getElem?_cons_zero] at hp
          obtain rfl := Option.some.inj hbm
          obtain rfl := Option.some.inj hp
          show c + len * (performanceIndex bm0 / s) - c = len * (performanceIndex bm0 / s)
          ring
      | succ i =>
          rw [List.getElem?_cons_succ] at hbm
          rw [show lbAssign s len (bm0 :: rest) c =
            ⟨c, c + len * (performanceIndex bm0 / s)⟩ ::
              lbAssign s len rest (c + len * (performanceIndex bm0 / s)) from rfl,
            List.getElem?_cons_succ] at hp
          exact ih _ i bm p hbm hp

/-- Consecutive intervals produced by lbAssign are contiguous: each
start coincides with the previous end. -/
theorem lbAssign_adjacent (s len : ℚ) :
    ∀ (l : List Benchmark) (c : ℚ) (i : ℕ) (p q : Interval),
      (lbAssign s len l c)[i]? = some p →
      (lbAssign s len l c)[i + 1]? = some q → q.start = p.«end» := by
  intro l
  induction l with
  | nil => intro c i p q hp _; simp [lbAssign] at hp
  | cons bm0 rest ih =>
      intro c i p q hp hq
      rw [show lbAssign s len (bm0 :: rest) c =
        ⟨c, c + len * (performanceIndex bm0 / s)⟩ ::
          lbAssign s len rest (c + len * (performanceIndex bm0 / s)) from rfl] at hp hq
      cases i with
      | zero =>
          rw [List.getElem?_cons_zero] at hp
          rw [List.getElem?_cons_succ] at hq
          obtain rfl := Option.some.inj hp
          cases rest with
          | nil => simp [lbAssign] at hq
          | cons bm1 r2 =>
              rw [show lbAssign s len (bm1 :: r2) (c + len * (performanceIndex bm0 / s)) =
                ⟨c + len * (performanceIndex bm0 / s),
                  c + len * (performanceIndex bm0 / s) +
                    len * (performanceIndex bm1 / s)⟩ ::
                  lbAssign s len r2 (c + len * (performanceIndex bm0 / s) +
                    len * (performanceIndex bm1 / s)) from rfl,
                List.getElem?_cons_zero] at hq
              obtain rfl := Option.some.inj hq
              rfl
      | succ i =>
          rw [List.getElem?_cons_succ] at hp hq
          exact ih _ i p q hp hq

/-- The last interval produced by lbAssign ends at the cursor plus the
interval length times the total share. -/
theorem lbAssign_last (s len : ℚ) :
    ∀ (l : List Benchmark) (c : ℚ) (p : Interval),
      (lbAssign s len l c)[l.length - 1]? = some p →
        p.«end» = c + len * (((l.map performanceIndex).sum) / s) := by
  intro l
  induction l with
  | nil => intro c p hp; simp [lbAssign] at hp
  | cons bm0 rest ih =>
      intro c p hp
      rw [show lbAssign s len (bm0 :: rest) c =
        ⟨c, c + len * (performanceIndex bm0 / s)⟩ ::
          lbAssign s len rest (c + len * (performanceIndex bm0 / s)) from rfl] at hp
      cases rest with
      | nil =>
          rw [show (([bm0] : List Benchmark).length - 1) = 0 from rfl,
            List.getElem?_cons_zero] at hp
          obtain rfl := Option.some.inj hp
          show c + len * (performanceIndex bm0 / s) = _
          simp
      | cons bm1 r2 =>
          rw [show ((bm0 :: bm1 :: r2 : List Benchmark).length - 1) =
            ((bm1 :: r2 : List Benchmark).length - 1) + 1 from by simp,
            List.getElem?_cons_succ] at hp
          rw [ih _ p hp]
          simp only [List.map_cons, List.sum_cons]
          ring

/-- C2: with a nonempty pool of positive benchmarks and an ordered
interval, load-balanced partitioning yields one sub-interval per worker
in pool order, each of width equal to the overall width times the
normalized performance index of its worker; consecutive sub-intervals
are contiguous (no gap or overlap), each is ordered, the first starts at
the overall start point and the last ends exactly at the overall end
point. -/
theorem lb_partition_tiles (bms : List Benchmark) (iv : Interval)
    (hne : bms ≠ [])
    (hpos : ∀ bm ∈ bms, 0 < bm.timeMs ∧ 0 < bm.delta)
    (hiv : iv.start ≤ iv.«end») :
    (computeIntervalsForWorkersWithLoadBalancing bms iv).length = bms.length ∧
    (∀ (i : ℕ) (bm : Benchmark) (p : Interval), bms[i]? = some bm →
      (computeIntervalsForWorkersWithLoadBalancing bms iv)[i]? = some p →
      p.«end» - p.start = (iv.«end» - iv.start) *
        (performanceIndex bm / (bms.map performanceIndex).sum)) ∧
    (∀ p : Interval,
      (computeIntervalsForWorkersWithLoadBalancing bms iv)[0]? = some p →
      p.start = iv.start) ∧
    (∀ (i : ℕ) (p q : Interval),
      (computeIntervalsForWorkersWithLoadBalancing bms iv)[i]? = some p →
      (computeIntervalsForWorkersWithLoadBalancing bms iv)[i + 1]? = some q →
      q.start = p.«end») ∧
    (∀ p ∈ computeIntervalsForWorkersWithLoadBalancing bms iv,
      p.start ≤ p.«end») ∧
    (∃ p : Interval,
      (computeIntervalsForWorkersWithLoadBalancing bms iv)[bms.length - 1]? = some p ∧
      p.«end» = iv.«end») := by
  have hidx : ∀ bm ∈ bms, 0 < performanceIndex bm := by
    intro bm hbm
    obtain ⟨ht, hd⟩ := hpos bm hbm
    unfold performanceIndex
    positivity
  have hsum : 0 < (bms.map performanceIndex).sum := by
    apply List.sum_pos
    · intro x hx
      obtain ⟨bm, hbm, rfl⟩ := List.mem_map.mp hx
      exact hidx bm hbm
    · simpa using hne
  have hsne : (bms.map performanceIndex).sum ≠ 0 := ne_of_gt hsum
  have hlen : (computeIntervalsForWorkersWithLoadBalancing bms iv).length = bms.length :=
    lbAssign_length _ _ bms iv.start
  refine ⟨hlen, ?_, ?_, ?_, ?_, ?_⟩
  · intro i bm p hbm hp
    exact lbAssign_width _ _ bms iv.start i bm p hbm hp
  · intro p hp
    obtain ⟨bm0, rest, rfl⟩ := List.exists_cons_of_ne_nil hne
    rw [show computeIntervalsForWorkersWithLoadBalancing (bm0 :: rest) iv =
      ⟨iv.start, iv.start + (iv.«end» - iv.start) *
        (performanceIndex bm0 / ((bm0 :: rest).map performanceIndex).sum)⟩ ::
        lbAssign (((bm0 :: rest).map performanceIndex).sum) (iv.«end» - iv.start) rest
          (iv.start + (iv.«end» - iv.start) *
            (performanceIndex bm0 / ((bm0 :: rest).map performanceIndex).sum)) from rfl,
      List.getElem?_cons_zero] at hp
    obtain rfl := Option.some.inj hp
    rfl
  · intro i p q hp hq
    exact lbAssign_adjacent _ _ bms iv.start i p q hp hq
  · intro p hp
    obtain ⟨i, hi, hv⟩ := List.mem_iff_getElem.mp hp
    have hp? : (computeIntervalsForWorkersWithLoadBalancing bms iv)[i]? = some p := by
      rw [List.getElem?_eq_getElem hi, hv]
    have hib : i < bms.length := by rw [← hlen]; exact hi
    have hbm? : bms[i]? = some (bms[i]) := List.getElem?_eq_getElem hib
    have hw := lbAssign_width _ _ bms iv.start i (bms[i]) p hbm? hp?
    have hmem : bms[i] ∈ bms := List.getElem_mem hib
    have h1 : 0 < performanceIndex (bms[i]) := hidx _ hmem
    have h2 : 0 ≤ (iv.«end» - iv.start) *
        (performanceIndex (bms[i]) / (bms.map performanceIndex).sum) := by
      apply mul_nonneg (by linarith)
      exact le_of_lt (div_pos h1 hsum)
    linarith [hw]
  · have hlast : bms.length - 1 < (computeIntervalsForWorkersWithLoadBalancing bms iv).length := by
      rw [hlen]
      have : 0 < bms.length := List.length_pos.mpr hne
      omega
    refine ⟨(computeIntervalsForWorkersWithLoadBalancing bms iv)[bms.length - 1],
      List.getElem?_eq_getElem hlast, ?_⟩
    have := lbAssign_last (((bms).map performanceIndex).sum) (iv.«end» - iv.start)
      bms iv.start _ (List.getElem?_eq_getElem hlast)
    rw [this, div_self hsne]
    ring

/-- Witness for C2 at one benchmark of time one and delta one over the
unit interval. -/
theorem lb_partition_tiles_witness :
    (computeIntervalsForWorkersWithLoadBalancing [⟨1, 1⟩] ⟨0, 1⟩).length =
      ([⟨1, 1⟩] : List Benchmark).length ∧
    (∀ (i : ℕ) (bm : Benchmark) (p : Interval),
      ([⟨1, 1⟩] : List Benchmark)[i]? = some bm →
      (computeIntervalsForWorkersWithLoadBalancing [⟨1, 1⟩] ⟨0, 1⟩)[i]? = some p →
      p.«end» - p.start = ((1 : ℚ) - 0) *
        (performanceIndex bm / (([⟨1, 1⟩] : List Benchmark).map performanceIndex).sum)) ∧
    (∀ p : Interval,
      (computeIntervalsForWorkersWithLoadBalancing [⟨1, 1⟩] ⟨0, 1⟩)[0]? = some p →
      p.start = 0) ∧
    (∀ (i : ℕ) (p q : Interval),
      (computeIntervalsForWorkersWithLoadBalancing [⟨1, 1⟩] ⟨0, 1⟩)[i]? = some p →
      (computeIntervalsForWorkersWithLoadBalancing [⟨1, 1⟩] ⟨0, 1⟩)[i + 1]? = some q →
      q.start = p.«end») ∧
    (∀ p ∈ computeIntervalsForWorkersWithLoadBalancing [⟨1, 1⟩] ⟨0, 1⟩,
      p.start ≤ p.«end») ∧
    (∃ p : Interval,
      (computeIntervalsForWorkersWithLoadBalancing [⟨1, 1⟩] ⟨0, 1⟩)[
        ([⟨1, 1⟩] : List Benchmark).length - 1]? = some p ∧
      p.«end» = 1) :=
  lb_partition_tiles [⟨1, 1⟩] ⟨0, 1⟩ (by simp)
    (by intro bm hbm; simp at hbm; rw [hbm]; exact ⟨by norm_num, by norm_num⟩)
    (by norm_num)

/-- C6: for two workers whose benchmarks are (t, d) and (2t, d) with
positive t and d, load-balanced partitioning gives the first worker a
sub-interval exactly twice as wide as the second worker's. -/
theorem lb_two_workers_ratio (t d : ℚ) (iv : Interval) (ht : 0 < t) (hd : 0 < d) :
    ∃ p q, computeIntervalsForWorkersWithLoadBalancing [⟨t, d⟩, ⟨2 * t, d⟩] iv = [p, q] ∧
      p.«end» - p.start = 2 * (q.«end» - q.start) := by
  have ht0 : t ≠ 0 := ne_of_gt ht
  have hd0 : d ≠ 0 := ne_of_gt hd
  refine ⟨_, _, rfl, ?_⟩
  show iv.start + (iv.«end» - iv.start) * (performanceIndex ⟨t, d⟩ /
      (([⟨t, d⟩, ⟨2 * t, d⟩] : List Benchmark).map performanceIndex).sum) - iv.start
    = 2 * (iv.start + (iv.«end» - iv.start) * (performanceIndex ⟨t, d⟩ /
        (([⟨t, d⟩, ⟨2 * t, d⟩] : List Benchmark).map performanceIndex).sum) +
      (iv.«end» - iv.start) * (performanceIndex ⟨2 * t, d⟩ /
        (([⟨t, d⟩, ⟨2 * t, d⟩] : List Benchmark).map performanceIndex).sum) -
      (iv.start + (iv.«end» - iv.start) * (performanceIndex ⟨t, d⟩ /
        (([⟨t, d⟩, ⟨2 * t, d⟩] : List Benchmark).map performanceIndex).sum)))
  have hkey : performanceIndex (⟨t, d⟩ : Benchmark) =
      2 * performanceIndex (⟨2 * t, d⟩ : Benchmark) := by
    show (1 / 1000000 : ℚ) / (t * d) = 2 * ((1 / 1000000 : ℚ) / (2 * t * d))
    field_simp
    ring
  rw [hkey]
  ring

/-- Witness for C6 at t = 1, d = 1 over the unit interval. -/
theorem lb_two_workers_ratio_witness :
    ∃ p q, computeIntervalsForWorkersWithLoadBalancing [⟨1, 1⟩, ⟨2 * 1, 1⟩] ⟨0, 1⟩ = [p, q] ∧
      p.«end» - p.start = 2 * (q.«end» - q.start) :=
  lb_two_workers_ratio 1 1 ⟨0, 1⟩ (by norm_num) (by norm_num)

/-- C8: with load balancing disabled, partitioning yields numberOfWorkers
sub-intervals in pool order, the i-th running from start + d * i to
start + d * (i + 1) with d the equal width; in particular four workers
over the interval from 0 to 8 receive widths of two in order. -/
theorem equal_split_partition (n : ℕ) (bms : List Benchmark) (iv : Interval)
    (i : ℕ) (hi : i < n) :
    (computeIntervalsForWorkers false bms n iv).length = n ∧
    (computeIntervalsForWorkers false bms n iv)[i]? =
      some ⟨iv.start + (iv.«end» - iv.start) / (n : ℚ) * (i : ℚ),
            iv.start + (iv.«end» - iv.start) / (n : ℚ) * ((i : ℚ) + 1)⟩ ∧
    (∀ p ∈ computeIntervalsForWorkers false bms n iv,
      p.«end» - p.start = (iv.«end» - iv.start) / (n : ℚ)) ∧
    computeIntervalsForWorkers false [] 4 ⟨0, 8⟩ = [⟨0, 2⟩, ⟨2, 4⟩, ⟨4, 6⟩, ⟨6, 8⟩] := by
  refine ⟨?_, ?_, ?_, ?_⟩
  · simp [computeIntervalsForWorkers]
  · rw [show computeIntervalsForWorkers false bms n iv =
      (List.range n).map (fun (j : ℕ) =>
        (⟨iv.start + (iv.«end» - iv.start) / (n : ℚ) * (j : ℚ),
          iv.start + (iv.«end» - iv.start) / (n : ℚ) * ((j : ℚ) + 1)⟩ : Interval)) from rfl]
    rw [List.getElem?_map, List.getElem?_range hi]
    rfl
  · intro p hp
    rw [show computeIntervalsForWorkers false bms n iv =
      (List.range n).map (fun (j : ℕ) =>
        (⟨iv.start + (iv.«end» - iv.start) / (n : ℚ) * (j : ℚ),
          iv.start + (iv.«end» - iv.start) / (n : ℚ) * ((j : ℚ) + 1)⟩ : Interval)) from rfl]
      at hp
    obtain ⟨j, _, rfl⟩ := List.mem_map.mp hp
    show iv.start + (iv.«end» - iv.start) / (n : ℚ) * ((j : ℚ) + 1) -
      (iv.start + (iv.«end» - iv.start) / (n : ℚ) * (j : ℚ)) = _
    ring
  · norm_num [computeIntervalsForWorkers, List.range_succ]

/-- Witness for C8 at four workers over the interval from 0 to 8,
index one. -/
theorem equal_split_partition_witness :
    (computeIntervalsForWorkers false [] 4 ⟨0, 8⟩).length = 4 ∧
    (computeIntervalsForWorkers false [] 4 ⟨0, 8⟩)[1]? =
      some ⟨0 + ((8 : ℚ) - 0) / ((4 : ℕ) : ℚ) * ((1 : ℕ) : ℚ),
            0 + ((8 : ℚ) - 0) / ((4 : ℕ) : ℚ) * (((1 : ℕ) : ℚ) + 1)⟩ ∧
    (∀ p ∈ computeIntervalsForWorkers false [] 4 ⟨0, 8⟩,
      p.«end» - p.start = ((8 : ℚ) - 0) / ((4 : ℕ) : ℚ)) ∧
    computeIntervalsForWorkers false [] 4 ⟨0, 8⟩ = [⟨0, 2⟩, ⟨2, 4⟩, ⟨4, 6⟩, ⟨6, 8⟩] :=
  equal_split_partition 4 [] ⟨0, 8⟩ 1 (by norm_num)

/-! Pool assembly, message reception and the worker main loop. -/

/-- Outcome of one accept attempt during pool assembly: a successful
connection carrying its socket, a timeout (errno EWOULDBLOCK), or any
other accept error. -/
inductive AcceptOutcome where
  | ok (socket : ℕ)
  | timeout
  | err
  deriving DecidableEq, Repr

/-- populateWorkerPool of server.c, run over a trace of accept outcomes.
Each returned slot records the socket stored in workerSocketsOut; none
marks a slot filled from the uninitialized local workerSocket after a
failed accept: on an accept error other than timeout the code logs the
error and then falls through to the store and to the counter increment
(no else branch guards them). -/
def populateWorkerPool (maxNumberOfWorkers : ℕ) :
    List AcceptOutcome → ℕ → List (Option ℕ)
  | [], _ => []
  | outcome :: rest, numberOfWorkers =>
      if maxNumberOfWorkers ≤ numberOfWorkers then []
      else
        match outcome with
        | AcceptOutcome.timeout => []
        | AcceptOutcome.ok s =>
            some s :: populateWorkerPool maxNumberOfWorkers rest (numberOfWorkers + 1)
        | AcceptOutcome.err =>
            none :: populateWorkerPool maxNumberOfWorkers rest (numberOfWorkers + 1)

/-- C3 (counter-evidence): when the first accept attempt fails with an
error other than timeout and the next one times out, the pool of
capacity two ends up holding one entry, filled from the uninitialized
socket variable: the failed candidate was added and the count
incremented rather than skipped. -/
theorem pool_accept_error_adds_entry :
    populateWorkerPool 2 [AcceptOutcome.err, AcceptOutcome.timeout] 0 =
      [Option.none] ∧
    populateWorkerPool 2 [AcceptOutcome.ok 5, AcceptOutcome.timeout] 0 =
      [Option.some 5] ∧
    populateWorkerPool 2 [AcceptOutcome.timeout, AcceptOutcome.ok 5] 0 = [] := by
  exact ⟨rfl, rfl, rfl⟩

/-- Byte counts of the fixed-size wire messages: two or three
eight-byte doubles. -/
def sizeofBenchmark : ℤ := 16

/-- Byte count of the Response message. -/
def sizeofResponse : ℤ := 16

/-- Byte count of the Request message. -/
def sizeofRequest : ℤ := 24

/-- recvBenchmark of server.c as a function of the byte count (or
negative error) returned by recv: on any count other than
sizeof(Benchmark) it returns that recv status itself, otherwise 0; the
caller treats any nonzero return as failure. -/
def recvBenchmark (recvStatus : ℤ) : ℤ :=
  if recvStatus ≠ sizeofBenchmark then recvStatus else 0

/-- recvResponse of server.c: any byte count other than
sizeof(Response) yields the failure status -1. -/
def recvResponse (recvStatus : ℤ) : ℤ :=
  if recvStatus ≠ sizeofResponse then -1 else 0

/-- receiveRequestHelper of worker.c: any byte count other than
sizeof(Request) yields false. -/
def receiveRequestHelper (recvStatus : ℤ) : Bool :=
  if recvStatus ≠ sizeofRequest then false else true

/-- C4 (counter-evidence): a peer that closes after zero bytes makes
recv return 0, and recvBenchmark then returns 0, the success status, so
the unwritten benchmark buffer is treated as parsed; recvResponse and
the worker request read do report failure on the same input (and on
short counts such as 7 all three report a nonzero or false status). -/
theorem recv_zero_bytes_status :
    recvBenchmark 0 = 0 ∧
    recvResponse 0 = -1 ∧
    receiveRequestHelper 0 = false ∧
    recvBenchmark 7 = 7 ∧
    recvResponse 7 = -1 ∧
    receiveRequestHelper 7 = false := by
  exact ⟨rfl, rfl, rfl, rfl, rfl, rfl⟩

/-- Outcome oracles for one cycle of the worker main loop: whether the
probe receive, the connect back, the benchmark send, the request
receive, the integral computation and the response send succeed. -/
structure CycleEnv where
  probeOk : Bool
  connectOk : Bool
  benchmarkSendOk : Bool
  requestRecvOk : Bool
  computeOk : Bool
  responseSendOk : Bool

/-- Observable result of one iteration of the worker main loop: whether
control returns to waiting for the next probe, whether the process
terminates, whether a connection to the coordinator was established
during the cycle, and whether that connection was closed. -/
structure CycleResult where
  returnsToAwaitProbe : Bool
  terminatesProcess : Bool
  connectionOpened : Bool
  connectionClosed : Bool
  deriving DecidableEq, Repr

/-- One iteration of the for loop in main of worker.c: a failed probe
receive or a failed connect back continues with no connection open;
after a successful connect, a failure to send the benchmark, receive the
request, compute the integral or send the response closes the server
socket and continues; a fully successful cycle also closes the socket
and continues. -/
def workerCycle (env : CycleEnv) : CycleResult :=
  if env.probeOk = false then ⟨true, false, false, false⟩
  else if env.connectOk = false then ⟨true, false, false, false⟩
  else if env.benchmarkSendOk = false then ⟨true, false, true, true⟩
  else if env.requestRecvOk = false then ⟨true, false, true, true⟩
  else if env.computeOk = false then ⟨true, false, true, true⟩
  else if env.responseSendOk = false then ⟨true, false, true, true⟩
  else ⟨true, false, true, true⟩

/-- C9: whatever combination of cycle-local failures occurs, one
iteration of the worker main loop never terminates the process, always
returns control to waiting for the next discovery probe, and closes the
connection exactly when one was opened. -/
theorem worker_cycle_resilient (env : CycleEnv) :
    (workerCycle env).terminatesProcess = false ∧
    (workerCycle env).returnsToAwaitProbe = true ∧
    (workerCycle env).connectionClosed = (workerCycle env).connectionOpened := by
  unfold workerCycle
  repeat' split
  all_goals exact ⟨rfl, rfl, rfl⟩

end DistIntegral
